import Mathlib

/-!
Verification of the segment codec of the prompt-manager repository.

The codec lives in `src/frontend/src/Editor.jsx`:
  * `parseSegments` (decode): splits raw text on the literal delimiters
    `{` `{` `{` and `}` `}` `}` into text and code segments;
  * `parseCodeBlock`: extracts `language`, `readOnly` and `content` from a
    code-block body;
  * `buildRawText` (encode): reconstructs the raw text from segments.
A historical encoder variant lives in `src/frontend/src/parseSegments.js`.

Strings are modelled as `List Char`.  `String.prototype.indexOf(pat, i)`
followed by the two `slice` calls is modelled by `splitFirst pat`, which
returns the part before the first occurrence of `pat` and the part after it.
The JavaScript `while` loop advances its cursor by at least one character per
iteration, so the total number of iterations is bounded by the input length;
the Lean embedding makes this explicit with a fuel parameter equal to the
input length (`parseSegmentsF`), wrapped by `parseSegments`.
-/

/-- The open delimiter literal of the codec (three open braces). -/
def openDelim : List Char := ['{', '{', '{']

/-- The close delimiter literal of the codec (three close braces). -/
def closeDelim : List Char := ['}', '}', '}']

/-- The read-only marker literal `[readonly]`. -/
def marker : List Char := ['[', 'r', 'e', 'a', 'd', 'o', 'n', 'l', 'y', ']']

/-- `isPre pat s` holds when `pat` occurs at the very start of `s`
(the anchored test behind an `indexOf` hit at the current position). -/
def isPre : List Char → List Char → Bool
  | [], _ => true
  | _ :: _, [] => false
  | p :: ps, c :: cs => if p = c then isPre ps cs else false

/-- `splitFirst pat s` models `s.indexOf(pat)` together with the slices around
the hit: `some (a, b)` when `s = a ++ pat ++ b` with the occurrence of `pat`
at the earliest possible position, `none` when `pat` does not occur in `s`. -/
def splitFirst (pat : List Char) : List Char → Option (List Char × List Char)
  | [] => if isPre pat [] then some ([], []) else none
  | c :: rest =>
    if isPre pat (c :: rest) then some ([], (c :: rest).drop pat.length)
    else
      match splitFirst pat rest with
      | some (a, b) => some (c :: a, b)
      | none => none

/-- `contains pat s`: `pat` occurs somewhere in `s` (JS `String.includes`). -/
def contains (pat : List Char) : List Char → Bool
  | [] => isPre pat []
  | c :: rest => isPre pat (c :: rest) || contains pat rest

/-- One literal occurrence of `pat` removed (JS `String.replace(pat, "")`). -/
def removeFirst (pat s : List Char) : List Char :=
  match splitFirst pat s with
  | some (a, b) => a ++ b
  | none => s

/-- The character class removed by `String.prototype.trim` (ECMAScript
WhiteSpace and LineTerminator code points that fit the codec's use). -/
def isJsSpace (c : Char) : Bool :=
  c = ' ' || c = '\t' || c = '\n' || c = '\r' ||
  c = Char.ofNat 11 || c = Char.ofNat 12 || c = Char.ofNat 160 ||
  c = Char.ofNat 8232 || c = Char.ofNat 8233 || c = Char.ofNat 65279

/-- Leading-whitespace removal. -/
def trimStart (s : List Char) : List Char := s.dropWhile isJsSpace

/-- Trailing-whitespace removal. -/
def trimEnd (s : List Char) : List Char := (s.reverse.dropWhile isJsSpace).reverse

/-- JS `String.prototype.trim`: whitespace removed from both ends. -/
def trim (s : List Char) : List Char := trimStart (trimEnd s)

/-- A parsed segment: plain text, or a code block with language, read-only
flag and content (the tagged union produced by `parseSegments`). -/
inductive Segment where
  | text (content : List Char)
  | code (language : List Char) (readOnly : Bool) (content : List Char)
deriving DecidableEq, Repr

/-- `parseCodeBlock` from Editor.jsx: split the block body at its first
newline into header line and content; the header yields `readOnly` (presence
of the marker, one literal occurrence of which is then removed) and
`language` (the remaining header text, trimmed). -/
def parseCodeBlock (blockText : List Char) : Segment :=
  let p : List Char × List Char :=
    match splitFirst ['\n'] blockText with
    | some q => q
    | none => (blockText, [])
  if contains marker p.1 then
    Segment.code (trim (trim (removeFirst marker p.1))) true p.2
  else
    Segment.code (trim p.1) false p.2

/-- The loop body of `parseSegments` from Editor.jsx, with fuel bounding the
number of iterations (each iteration strictly shrinks the remaining input). -/
def parseSegmentsF : Nat → List Char → List Segment
  | _, [] => []
  | 0, _ :: _ => []
  | Nat.succ fuel, c :: rest =>
    match splitFirst openDelim (c :: rest) with
    | none => [Segment.text (c :: rest)]
    | some (pre, afterOpen) =>
      (if pre = [] then [] else [Segment.text pre]) ++
      (match splitFirst closeDelim afterOpen with
       | none => [parseCodeBlock afterOpen]
       | some (body, rest2) => parseCodeBlock body :: parseSegmentsF fuel rest2)

/-- `parseSegments` from Editor.jsx (the decoder). -/
def parseSegments (rawText : List Char) : List Segment :=
  parseSegmentsF rawText.length rawText

/-- The rendering of one segment inside `buildRawText` from Editor.jsx. -/
def renderSeg : Segment → List Char
  | Segment.text content => content
  | Segment.code language readOnly content =>
    openDelim ++ language ++ (if readOnly then ' ' :: marker else []) ++
      '\n' :: content ++ closeDelim

/-- `buildRawText` from Editor.jsx (the encoder). -/
def buildRawText (segments : List Segment) : List Char :=
  (segments.map renderSeg).flatten

/-- The rendering of one segment in the historical `buildRawText` of
parseSegments.js (no read-only marker; language only when truthy). -/
def renderSegJs : Segment → List Char
  | Segment.text content => content
  | Segment.code language _ content =>
    openDelim ++ (if language = [] then ['\n'] else language ++ ['\n']) ++
      content ++ closeDelim

/-- The historical `buildRawText` of parseSegments.js. -/
def buildRawTextJs (segments : List Segment) : List Char :=
  (segments.map renderSegJs).flatten

/-- `updated[idx].content = newValue` on one segment. -/
def setContent : Segment → List Char → Segment
  | Segment.text _, v => Segment.text v
  | Segment.code l ro _, v => Segment.code l ro v

/-- `handleSegmentChange` from Editor.jsx: replace the content of the segment
at `idx`, leaving everything else unchanged.  Out-of-range indices (where the
JS code would fault on `undefined`) yield `none`. -/
def handleSegmentChange (segments : List Segment) (idx : Nat)
    (newValue : List Char) : Option (List Segment) :=
  match segments.get? idx with
  | some seg => some (segments.set idx (setContent seg newValue))
  | none => none

/-- Conditions on a code segment under which its rendering decodes back to
itself: the language is trim-fixed and free of newlines, of the close
delimiter and of the marker, and the content followed by two close braces
never exhibits the close delimiter (no embedded close delimiter and no
trailing close brace). -/
def segCodeOk (language content : List Char) : Bool :=
  decide (trim language = language) && !(contains ['\n'] language) &&
  !(contains closeDelim language) && !(contains marker language) &&
  !(contains closeDelim (content ++ ['}', '}']))

/-- Strong well-formedness of a document: text segments are non-empty, never
adjacent, free of the open delimiter (also across the boundary with a
following code block's open delimiter), and code segments satisfy
`segCodeOk`.  This is exactly the precondition under which decode inverts
encode. -/
def wfDoc : List Segment → Bool
  | [] => true
  | Segment.text t :: rest =>
    !(decide (t = [])) &&
    (match rest with
     | [] => !(contains openDelim t)
     | Segment.text _ :: _ => false
     | Segment.code _ _ _ :: _ => !(contains openDelim (t ++ ['{', '{']))) &&
    wfDoc rest
  | Segment.code l _ c :: rest => segCodeOk l c && wfDoc rest

/-- The conditions of `segCodeOk` that are not automatically true of decoder
output (they can fail only for exotic inputs, e.g. a language mentioning the
marker itself): used as the hypothesis of the repaired idempotence claim. -/
def segSafe : Segment → Bool
  | Segment.text _ => true
  | Segment.code l _ c =>
    !(contains marker l) && !(contains closeDelim l) &&
    !(contains closeDelim (c ++ ['}', '}']))

/-- Invariants of the text segments produced by the decoder: non-empty,
free of the open delimiter, and never followed by another text segment. -/
def textInv : List Segment → Bool
  | [] => true
  | Segment.text t :: rest =>
    !(decide (t = [])) && !(contains openDelim t) &&
    (match rest with
     | Segment.text _ :: _ => false
     | _ => true) &&
    textInv rest
  | Segment.code _ _ _ :: rest => textInv rest

/-- A segment whose read-only flag is off (text segments count as well). -/
def roFree : Segment → Bool
  | Segment.text _ => true
  | Segment.code _ ro _ => !ro

/-! ### Basic facts about `isPre`, `splitFirst` and `contains` -/

theorem isPre_take (pat : List Char) : ∀ s, isPre pat s = true →
    s = pat ++ s.drop pat.length := by
  induction pat with
  | nil => intro s _; simp
  | cons p ps ih =>
    intro s h
    cases s with
    | nil => simp [isPre] at h
    | cons c cs =>
      by_cases hpc : p = c
      · subst hpc
        simp only [isPre, if_pos rfl] at h
        have := ih cs h
        simp only [List.length_cons, List.cons_append, List.drop_succ_cons]
        exact congrArg (p :: ·) this
      · simp [isPre, hpc] at h

theorem isPre_append_self (pat : List Char) : ∀ t, isPre pat (pat ++ t) = true := by
  induction pat with
  | nil => intro t; simp [isPre]
  | cons p ps ih => intro t; simp [isPre, ih]

theorem isPre_mono (pat : List Char) : ∀ s t, isPre pat s = true →
    isPre pat (s ++ t) = true := by
  induction pat with
  | nil => intro s t _; cases s <;> simp [isPre]
  | cons p ps ih =>
    intro s t h
    cases s with
    | nil => simp [isPre] at h
    | cons c cs =>
      by_cases hpc : p = c
      · subst hpc
        simp only [isPre, if_pos rfl] at h ⊢
        exact ih cs t h
      · simp [isPre, hpc] at h

theorem isPre_nil_false (pat : List Char) (hpat : pat ≠ []) :
    isPre pat [] = false := by
  cases pat with
  | nil => exact absurd rfl hpat
  | cons p ps => rfl

theorem splitFirst_sound (pat : List Char) : ∀ s a b,
    splitFirst pat s = some (a, b) → s = a ++ pat ++ b := by
  intro s
  induction s with
  | nil =>
    intro a b h
    simp only [splitFirst] at h
    by_cases hp : isPre pat [] = true
    · rw [if_pos hp] at h
      cases pat with
      | nil =>
        simp at h
        obtain ⟨h1, h2⟩ := h
        subst h1; subst h2; rfl
      | cons p ps => simp [isPre] at hp
    · rw [if_neg hp] at h; cases h
  | cons c rest ih =>
    intro a b h
    simp only [splitFirst] at h
    by_cases hp : isPre pat (c :: rest) = true
    · rw [if_pos hp] at h
      simp at h
      obtain ⟨h1, h2⟩ := h
      subst h1
      have := isPre_take pat (c :: rest) hp
      rw [← h2]
      simpa using this
    · rw [if_neg hp] at h
      cases hsplit : splitFirst pat rest with
      | none => rw [hsplit] at h; cases h
      | some ab =>
        obtain ⟨a', b'⟩ := ab
        rw [hsplit] at h
        simp at h
        obtain ⟨h1, h2⟩ := h
        have := ih a' b' hsplit
        subst h1; subst h2
        simp [this]

theorem splitFirst_none_iff (pat : List Char) : ∀ s,
    splitFirst pat s = none ↔ contains pat s = false := by
  intro s
  induction s with
  | nil =>
    simp only [splitFirst, contains]
    by_cases hp : isPre pat [] = true
    · simp [hp]
    · simp [hp, Bool.of_not_eq_true hp]
  | cons c rest ih =>
    simp only [splitFirst, contains]
    by_cases hp : isPre pat (c :: rest) = true
    · simp [hp]
    · rw [if_neg hp, Bool.of_not_eq_true hp]
      simp only [Bool.false_or]
      cases hsplit : splitFirst pat rest with
      | none => simpa [hsplit] using ih.mp hsplit
      | some ab =>
        obtain ⟨a', b'⟩ := ab
        simp only [hsplit]
        constructor
        · intro h; cases h
        · intro h
          have : splitFirst pat rest = none := ih.mpr h
          rw [this] at hsplit; cases hsplit

theorem contains_append_left (pat : List Char) (hpat : pat ≠ []) : ∀ a b,
    contains pat a = true → contains pat (a ++ b) = true := by
  intro a
  induction a with
  | nil => intro b h; rw [contains, isPre_nil_false pat hpat] at h; cases h
  | cons c a' ih =>
    intro b h
    rw [contains] at h
    rw [List.cons_append, contains]
    rcases Bool.or_eq_true_iff.mp h with h1 | h2
    · have h3 : isPre pat (c :: (a' ++ b)) = true := by
        simpa using isPre_mono pat (c :: a') b h1
      rw [h3]; simp
    · rw [ih b h2]; simp

theorem contains_append_right (pat : List Char) : ∀ a b,
    contains pat b = true → contains pat (a ++ b) = true := by
  intro a
  induction a with
  | nil => intro b h; simpa using h
  | cons c a' ih =>
    intro b h
    rw [List.cons_append, contains, ih b h]
    simp

theorem contains_self_append (pat : List Char) (hpat : pat ≠ []) : ∀ b,
    contains pat (pat ++ b) = true := by
  intro b
  cases pat with
  | nil => exact absurd rfl hpat
  | cons p ps =>
    rw [List.cons_append, contains]
    rw [show p :: (ps ++ b) = (p :: ps) ++ b from rfl, isPre_append_self]
    simp

/-! ### Occurrences across a separator character -/

theorem isPre_sep (sep : Char) : ∀ (pat z y : List Char), sep ∉ pat →
    isPre pat (z ++ sep :: y) = isPre pat z := by
  intro pat
  induction pat with
  | nil => intro z y _; cases z <;> simp [isPre]
  | cons q qs ih =>
    intro z y hsep
    cases z with
    | nil =>
      have hq : q ≠ sep := fun h => hsep (h ▸ List.mem_cons_self q qs)
      rw [List.nil_append, isPre_nil_false _ (by simp)]
      simp [isPre, hq]
    | cons c z' =>
      by_cases hqc : q = c
      · subst hqc
        simp only [List.cons_append, isPre, if_pos rfl]
        exact ih z' y (fun h => hsep (List.mem_cons_of_mem q h))
      · simp [isPre, hqc]

theorem contains_sep (sep : Char) (pat : List Char) (hpat : pat ≠ [])
    (hsep : sep ∉ pat) : ∀ x y,
    contains pat (x ++ sep :: y) = (contains pat x || contains pat y) := by
  intro x
  induction x with
  | nil =>
    intro y
    rw [List.nil_append, contains, contains, isPre_nil_false pat hpat]
    have h1 : isPre pat (sep :: y) = false := by
      have := isPre_sep sep pat [] y hsep
      simp only [List.nil_append] at this
      rw [this, isPre_nil_false pat hpat]
    rw [h1]
  | cons c x' ih =>
    intro y
    rw [List.cons_append, contains, ih y, contains]
    have : isPre pat (c :: (x' ++ sep :: y)) = isPre pat (c :: x') := by
      have := isPre_sep sep pat (c :: x') y hsep
      simpa using this
    rw [this, Bool.or_assoc]

theorem splitFirst_sep (sep : Char) (pat : List Char) (hpat : pat ≠ [])
    (hsep : sep ∉ pat) : ∀ a b, contains pat a = false →
    splitFirst pat (a ++ sep :: b) =
      (match splitFirst pat b with
       | some (x, y) => some (a ++ sep :: x, y)
       | none => none) := by
  intro a
  induction a with
  | nil =>
    intro b _
    rw [List.nil_append, splitFirst]
    have h1 : isPre pat (sep :: b) = false := by
      have := isPre_sep sep pat [] b hsep
      simp only [List.nil_append] at this
      rw [this, isPre_nil_false pat hpat]
    rw [if_neg (by simp [h1])]
    cases hb : splitFirst pat b with
    | none => simp
    | some xy => obtain ⟨x, y⟩ := xy; simp
  | cons c a' ih =>
    intro b hcont
    rw [contains] at hcont
    have h1 : isPre pat (c :: a') = false := by
      rcases Bool.or_eq_false_iff.mp hcont with ⟨h, _⟩; exact h
    have h2 : contains pat a' = false := by
      rcases Bool.or_eq_false_iff.mp hcont with ⟨_, h⟩; exact h
    rw [List.cons_append, splitFirst]
    have h3 : isPre pat (c :: (a' ++ sep :: b)) = false := by
      have := isPre_sep sep pat (c :: a') b hsep
      simp only [List.cons_append] at this
      rw [this, h1]
    rw [if_neg (by simp [h3]), ih b h2]
    cases hb : splitFirst pat b with
    | none => simp
    | some xy => obtain ⟨x, y⟩ := xy; simp

/-! ### Single-character patterns -/

theorem contains_single (ch : Char) : ∀ s, contains [ch] s = true ↔ ch ∈ s := by
  intro s
  induction s with
  | nil => simp [contains, isPre]
  | cons c rest ih =>
    rw [contains]
    constructor
    · intro h
      rcases Bool.or_eq_true_iff.mp h with h1 | h2
      · by_cases hc : ch = c
        · exact hc ▸ List.mem_cons_self c rest
        · simp [isPre, hc] at h1
      · exact List.mem_cons_of_mem c (ih.mp h2)
    · intro h
      rcases List.mem_cons.mp h with h1 | h2
      · subst h1; simp [isPre]
      · rw [ih.mpr h2]; simp

theorem splitFirst_single (ch : Char) : ∀ a b, contains [ch] a = false →
    splitFirst [ch] (a ++ ch :: b) = some (a, b) := by
  intro a
  induction a with
  | nil =>
    intro b _
    rw [List.nil_append, splitFirst, if_pos (by simp [isPre])]
    simp
  | cons c a' ih =>
    intro b hcont
    rw [contains] at hcont
    have h1 : isPre [ch] (c :: a') = false := by
      rcases Bool.or_eq_false_iff.mp hcont with ⟨h, _⟩; exact h
    have h2 : contains [ch] a' = false := by
      rcases Bool.or_eq_false_iff.mp hcont with ⟨_, h⟩; exact h
    have hcc : ch ≠ c := by
      intro h; subst h; simp [isPre] at h1
    rw [List.cons_append, splitFirst]
    have h3 : isPre [ch] (c :: (a' ++ ch :: b)) = false := by simp [isPre, hcc]
    rw [if_neg (by simp [h3]), ih b h2]

theorem splitFirst_min1 (ch : Char) : ∀ s a b,
    splitFirst [ch] s = some (a, b) → contains [ch] a = false := by
  intro s
  induction s with
  | nil =>
    intro a b h
    rw [splitFirst, if_neg (by simp [isPre])] at h
    cases h
  | cons c rest ih =>
    intro a b h
    rw [splitFirst] at h
    by_cases hp : isPre [ch] (c :: rest) = true
    · rw [if_pos hp] at h
      simp at h
      obtain ⟨h1, _⟩ := h
      subst h1
      simp [contains, isPre]
    · rw [if_neg hp] at h
      cases hsplit : splitFirst [ch] rest with
      | none => rw [hsplit] at h; cases h
      | some xy =>
        obtain ⟨a', b'⟩ := xy
        rw [hsplit] at h
        simp at h
        obtain ⟨h1, _⟩ := h
        subst h1
        have hcc : ch ≠ c := by
          intro hh; subst hh; simp [isPre] at hp
        have h1 : isPre [ch] (c :: a') = false := by simp [isPre, hcc]
        simp [contains, h1, ih a' b' hsplit]

/-! ### Triple-repeated-character patterns (the two delimiters) -/

theorem isPre_one_ext (p : Char) (u v : List Char) (hu : isPre [p] u = true)
    (hv : isPre [p] v = true) : ∀ z, isPre [p] (z ++ u) = isPre [p] (z ++ v) := by
  intro z
  cases z with
  | nil => rw [List.nil_append, List.nil_append, hu, hv]
  | cons c z' => simp [isPre]

theorem isPre_two_weaken (p : Char) (u : List Char)
    (hu : isPre [p, p] u = true) : isPre [p] u = true := by
  cases u with
  | nil => simp [isPre] at hu
  | cons c u' =>
    by_cases hpc : p = c
    · simp [isPre, hpc]
    · simp [isPre, hpc] at hu

theorem isPre_two_ext (p : Char) (u v : List Char) (hu : isPre [p, p] u = true)
    (hv : isPre [p, p] v = true) : ∀ z,
    isPre [p, p] (z ++ u) = isPre [p, p] (z ++ v) := by
  intro z
  cases z with
  | nil => rw [List.nil_append, List.nil_append, hu, hv]
  | cons c z' =>
    by_cases hpc : p = c
    · subst hpc
      simp only [List.cons_append, isPre, if_pos rfl]
      exact isPre_one_ext p u v (isPre_two_weaken p u hu) (isPre_two_weaken p v hv) z'
    · simp [isPre, hpc]

theorem isPre_three_ext (p : Char) (u v z : List Char) (hz : z ≠ [])
    (hu : isPre [p, p] u = true) (hv : isPre [p, p] v = true) :
    isPre [p, p, p] (z ++ u) = isPre [p, p, p] (z ++ v) := by
  cases z with
  | nil => exact absurd rfl hz
  | cons c z' =>
    by_cases hpc : p = c
    · subst hpc
      simp only [List.cons_append, isPre, if_pos rfl]
      exact isPre_two_ext p u v hu hv z'
    · simp [isPre, hpc]

theorem isPre_two_self (p : Char) : ∀ t, isPre [p, p] (p :: p :: t) = true := by
  intro t; simp [isPre]

theorem splitFirst_rep3 (p : Char) : ∀ a c,
    contains [p, p, p] (a ++ [p, p]) = false →
    splitFirst [p, p, p] (a ++ [p, p, p] ++ c) = some (a, c) := by
  intro a
  induction a with
  | nil =>
    intro c _
    rw [List.nil_append, List.cons_append, splitFirst]
    rw [if_pos (by exact isPre_append_self [p, p, p] c)]
    simp
  | cons x a' ih =>
    intro c hcont
    rw [List.cons_append, contains] at hcont
    have h1 : isPre [p, p, p] (x :: (a' ++ [p, p])) = false := by
      rcases Bool.or_eq_false_iff.mp hcont with ⟨h, _⟩; exact h
    have h2 : contains [p, p, p] (a' ++ [p, p]) = false := by
      rcases Bool.or_eq_false_iff.mp hcont with ⟨_, h⟩; exact h
    have h3 : isPre [p, p, p] (x :: (a' ++ [p, p, p] ++ c)) = false := by
      have hext := isPre_three_ext p ([p, p, p] ++ c) [p, p] (x :: a')
        (by simp) (by rw [List.cons_append, List.cons_append]; exact isPre_two_self p _)
        (isPre_two_self p [])
      simp only [List.cons_append, List.append_assoc, List.nil_append] at hext h1 ⊢
      rw [hext, h1]
    rw [List.cons_append, List.cons_append, splitFirst]
    rw [if_neg (by
      simp only [List.cons_append, List.append_assoc, List.nil_append] at h3 ⊢
      simp [h3])]
    have := ih c h2
    simp only [List.append_assoc, List.nil_append] at this ⊢
    rw [this]

theorem splitFirst_min3 (p : Char) : ∀ s a b,
    splitFirst [p, p, p] s = some (a, b) →
    contains [p, p, p] (a ++ [p, p]) = false := by
  intro s
  induction s with
  | nil =>
    intro a b h
    rw [splitFirst, if_neg (by simp [isPre])] at h
    cases h
  | cons c rest ih =>
    intro a b h
    rw [splitFirst] at h
    by_cases hp : isPre [p, p, p] (c :: rest) = true
    · rw [if_pos hp] at h
      simp at h
      obtain ⟨h1, _⟩ := h
      subst h1
      simp [contains, isPre]
    · rw [if_neg hp] at h
      cases hsplit : splitFirst [p, p, p] rest with
      | none => rw [hsplit] at h; cases h
      | some xy =>
        obtain ⟨a', b'⟩ := xy
        rw [hsplit] at h
        simp at h
        obtain ⟨h1, _⟩ := h
        subst h1
        have hrest : rest = a' ++ [p, p, p] ++ b' := splitFirst_sound _ rest a' b' hsplit
        have h4 : isPre [p, p, p] ((c :: a') ++ [p, p]) = false := by
          have hext := isPre_three_ext p [p, p] ([p, p, p] ++ b') (c :: a')
            (by simp) (isPre_two_self p [])
            (by rw [List.cons_append, List.cons_append]; exact isPre_two_self p _)
          rw [hext]
          have : (c :: a') ++ ([p, p, p] ++ b') = c :: rest := by
            rw [hrest]; simp
          rw [this, Bool.of_not_eq_true hp]
        rw [List.cons_append, contains]
        simp only [List.cons_append] at h4
        rw [h4, ih a' b' hsplit]
        simp

/-! ### Properties of `trim` -/

theorem dropWhile_idem (p : Char → Bool) : ∀ l : List Char,
    (l.dropWhile p).dropWhile p = l.dropWhile p := by
  intro l
  induction l with
  | nil => rfl
  | cons a t ih =>
    by_cases hp : p a = true
    · simp [List.dropWhile_cons, hp, ih]
    · simp [List.dropWhile_cons, hp]

theorem dropWhile_decomp (p : Char → Bool) : ∀ l : List Char,
    ∃ w, l = w ++ l.dropWhile p := by
  intro l
  induction l with
  | nil => exact ⟨[], rfl⟩
  | cons a t ih =>
    by_cases hp : p a = true
    · obtain ⟨w, hw⟩ := ih
      refine ⟨a :: w, ?_⟩
      simp [List.dropWhile_cons, hp]
      exact hw
    · exact ⟨[], by simp [List.dropWhile_cons, hp]⟩

theorem dropWhile_le_length (p : Char → Bool) : ∀ l : List Char,
    (l.dropWhile p).length ≤ l.length := by
  intro l
  induction l with
  | nil => simp
  | cons a t ih =>
    by_cases hp : p a = true
    · rw [List.dropWhile_cons, if_pos hp]
      exact Nat.le_succ_of_le ih
    · rw [List.dropWhile_cons, if_neg hp]

theorem dropWhile_head_false (p : Char → Bool) (h : Char) (t : List Char)
    (heq : (h :: t).dropWhile p = h :: t) : p h = false := by
  by_cases hp : p h = true
  · rw [List.dropWhile_cons, if_pos hp] at heq
    have hlen : (t.dropWhile p).length ≤ t.length := dropWhile_le_length p t
    rw [heq] at hlen
    simp at hlen
  · exact Bool.of_not_eq_true hp

theorem dropWhile_fix (p : Char → Bool) (h : Char) (t : List Char)
    (hp : p h = false) : (h :: t).dropWhile p = h :: t := by
  simp [List.dropWhile_cons, hp]

theorem trimEnd_idem (s : List Char) : trimEnd (trimEnd s) = trimEnd s := by
  unfold trimEnd
  rw [List.reverse_reverse, dropWhile_idem]

theorem trimStart_idem (s : List Char) : trimStart (trimStart s) = trimStart s := by
  unfold trimStart
  exact dropWhile_idem isJsSpace s

theorem trimEnd_of_trimStart (z : List Char) (h : trimEnd z = z) :
    trimEnd (trimStart z) = trimStart z := by
  have hdw : (z.reverse.dropWhile isJsSpace) = z.reverse := by
    have := congrArg List.reverse h
    unfold trimEnd at this
    rw [List.reverse_reverse] at this
    exact this
  obtain ⟨w, hw⟩ := dropWhile_decomp isJsSpace z
  cases hU : trimStart z with
  | nil => rfl
  | cons u0 u' =>
    have hU' : z.dropWhile isJsSpace = u0 :: u' := hU
    rw [hU'] at hw
    cases hrU : (u0 :: u').reverse with
    | nil => simp at hrU
    | cons r0 r' =>
      have hzrev : z.reverse = r0 :: (r' ++ w.reverse) := by
        rw [hw, List.reverse_append, hrU]
        simp
      have hr0 : isJsSpace r0 = false := by
        apply dropWhile_head_false isJsSpace r0 (r' ++ w.reverse)
        rw [← hzrev]
        exact hdw
      unfold trimEnd
      rw [hrU, dropWhile_fix isJsSpace r0 r' hr0, ← hrU, List.reverse_reverse]

theorem trim_idem (s : List Char) : trim (trim s) = trim s := by
  unfold trim
  rw [trimEnd_of_trimStart (trimEnd s) (trimEnd_idem s), trimStart_idem]

theorem trimEnd_snoc_space (x : List Char) : trimEnd (x ++ [' ']) = trimEnd x := by
  unfold trimEnd
  have h1 : (x ++ [' ']).reverse = ' ' :: x.reverse := by simp
  rw [h1, List.dropWhile_cons, if_pos (by decide)]

theorem trim_snoc_space (x : List Char) : trim (x ++ [' ']) = trim x := by
  unfold trim
  rw [trimEnd_snoc_space]

theorem mem_trimStart (a : Char) (s : List Char) (h : a ∈ trimStart s) : a ∈ s := by
  obtain ⟨w, hw⟩ := dropWhile_decomp isJsSpace s
  rw [hw]
  exact List.mem_append_right w h

theorem mem_trimEnd (a : Char) (s : List Char) (h : a ∈ trimEnd s) : a ∈ s := by
  unfold trimEnd at h
  rw [List.mem_reverse] at h
  obtain ⟨w, hw⟩ := dropWhile_decomp isJsSpace s.reverse
  have : a ∈ s.reverse := by rw [hw]; exact List.mem_append_right w h
  rwa [List.mem_reverse] at this

theorem mem_trim (a : Char) (s : List Char) (h : a ∈ trim s) : a ∈ s := by
  exact mem_trimEnd a s (mem_trimStart a (trimEnd s) h)

/-! ### Unfolding equations for `parseSegments` -/

theorem splitFirst_length (pat s a b : List Char)
    (h : splitFirst pat s = some (a, b)) :
    s.length = a.length + pat.length + b.length := by
  have := splitFirst_sound pat s a b h
  subst this
  simp [Nat.add_assoc]

theorem parseSegmentsF_congr : ∀ f1 f2 s, s.length ≤ f1 → s.length ≤ f2 →
    parseSegmentsF f1 s = parseSegmentsF f2 s := by
  intro f1
  induction f1 with
  | zero =>
    intro f2 s h1 _
    have : s = [] := List.length_eq_zero.mp (Nat.le_zero.mp h1)
    subst this
    cases f2 <;> rfl
  | succ m ih =>
    intro f2 s h1 h2
    cases s with
    | nil => cases f2 <;> rfl
    | cons c rest =>
      cases f2 with
      | zero => simp at h2
      | succ k =>
        simp only [parseSegmentsF]
        cases hopen : splitFirst openDelim (c :: rest) with
        | none => rfl
        | some po =>
          obtain ⟨pre, afterOpen⟩ := po
          dsimp only
          cases hclose : splitFirst closeDelim afterOpen with
          | none => rfl
          | some pc =>
            obtain ⟨body, rest2⟩ := pc
            dsimp only
            have len1 := splitFirst_length openDelim (c :: rest) pre afterOpen hopen
            have len2 := splitFirst_length closeDelim afterOpen body rest2 hclose
            have hb1 : rest2.length ≤ m := by
              simp only [List.length_cons] at len1 h1
              simp only [openDelim, closeDelim, List.length_cons] at len1 len2
              omega
            have hb2 : rest2.length ≤ k := by
              simp only [List.length_cons] at len1 h2
              simp only [openDelim, closeDelim, List.length_cons] at len1 len2
              omega
            rw [ih k rest2 hb1 hb2]

theorem parseSegments_nil : parseSegments [] = [] := rfl

theorem parseSegments_no_open (s : List Char) (hs : s ≠ [])
    (h : splitFirst openDelim s = none) : parseSegments s = [Segment.text s] := by
  cases s with
  | nil => exact absurd rfl hs
  | cons c rest =>
    unfold parseSegments
    rw [List.length_cons]
    simp only [parseSegmentsF, h]

theorem parseSegments_no_close (s pre rest : List Char)
    (ho : splitFirst openDelim s = some (pre, rest))
    (hc : splitFirst closeDelim rest = none) :
    parseSegments s =
      (if pre = [] then [] else [Segment.text pre]) ++ [parseCodeBlock rest] := by
  cases s with
  | nil => rw [splitFirst, if_neg (by simp [isPre, openDelim])] at ho; cases ho
  | cons c rest0 =>
    unfold parseSegments
    rw [List.length_cons]
    simp only [parseSegmentsF, ho, hc]

theorem parseSegments_step (s pre rest body rest2 : List Char)
    (ho : splitFirst openDelim s = some (pre, rest))
    (hc : splitFirst closeDelim rest = some (body, rest2)) :
    parseSegments s =
      (if pre = [] then [] else [Segment.text pre]) ++
        parseCodeBlock body :: parseSegments rest2 := by
  cases s with
  | nil => rw [splitFirst, if_neg (by simp [isPre, openDelim])] at ho; cases ho
  | cons c rest0 =>
    unfold parseSegments
    rw [List.length_cons]
    simp only [parseSegmentsF, ho, hc]
    have len1 := splitFirst_length openDelim (c :: rest0) pre rest ho
    have len2 := splitFirst_length closeDelim rest body rest2 hc
    have hb1 : rest2.length ≤ rest0.length := by
      simp only [openDelim, closeDelim, List.length_cons] at len1 len2
      omega
    rw [parseSegmentsF_congr rest0.length rest2.length rest2 hb1 (Nat.le_refl _)]

/-! ### Header decoding facts (`parseCodeBlock`) -/

theorem removeFirst_of_not_contains (pat s : List Char)
    (h : contains pat s = false) : removeFirst pat s = s := by
  unfold removeFirst
  rw [(splitFirst_none_iff pat s).mpr h]

theorem parseCodeBlock_eq_some (body fl ct : List Char)
    (h : splitFirst ['\n'] body = some (fl, ct)) :
    parseCodeBlock body =
      if contains marker fl then
        Segment.code (trim (trim (removeFirst marker fl))) true ct
      else Segment.code (trim fl) false ct := by
  unfold parseCodeBlock
  rw [h]

theorem parseCodeBlock_eq_none (body : List Char)
    (h : splitFirst ['\n'] body = none) :
    parseCodeBlock body =
      if contains marker body then
        Segment.code (trim (trim (removeFirst marker body))) true []
      else Segment.code (trim body) false [] := by
  unfold parseCodeBlock
  rw [h]

theorem contains_single_false_append (ch : Char) (x y : List Char)
    (hx : contains [ch] x = false) (hy : ch ∉ y) :
    contains [ch] (x ++ y) = false := by
  cases hb : contains [ch] (x ++ y) with
  | false => rfl
  | true =>
    exfalso
    have hm := (contains_single ch (x ++ y)).mp hb
    rcases List.mem_append.mp hm with h | h
    · have := (contains_single ch x).mpr h
      rw [hx] at this
      cases this
    · exact hy h

theorem removeFirst_marker_snoc_space (l : List Char)
    (hmk : contains marker l = false) :
    removeFirst marker (l ++ ' ' :: marker) = l ++ [' '] := by
  unfold removeFirst
  rw [splitFirst_sep ' ' marker (by decide) (by decide) l marker hmk]
  have hmm : splitFirst marker marker = some ([], []) := by decide
  rw [hmm]
  simp

/-- Decoding the header produced by the encoder recovers the original
language and read-only flag, under the `segCodeOk` language conditions. -/
theorem parseCodeBlock_render (l c : List Char) (ro : Bool)
    (hnl : contains ['\n'] l = false) (hmk : contains marker l = false)
    (htr : trim l = l) :
    parseCodeBlock ((l ++ (if ro then ' ' :: marker else [])) ++ '\n' :: c) =
      Segment.code l ro c := by
  cases ro with
  | false =>
    rw [if_neg (by simp), List.append_nil]
    rw [parseCodeBlock_eq_some (l ++ '\n' :: c) l c (splitFirst_single '\n' l c hnl)]
    rw [if_neg (by rw [hmk]; exact Bool.false_ne_true), htr]
  | true =>
    rw [if_pos rfl]
    have hnl2 : contains ['\n'] (l ++ ' ' :: marker) = false :=
      contains_single_false_append '\n' l (' ' :: marker) hnl (by decide)
    rw [parseCodeBlock_eq_some ((l ++ ' ' :: marker) ++ '\n' :: c)
      (l ++ ' ' :: marker) c (splitFirst_single '\n' (l ++ ' ' :: marker) c hnl2)]
    have hmk2 : contains marker (l ++ ' ' :: marker) = true := by
      apply contains_append_right
      decide
    rw [if_pos hmk2, removeFirst_marker_snoc_space l hmk, trim_snoc_space, htr, htr]

/-! ### Parsing rendered segments -/

theorem splitFirst_open_exact (a c : List Char)
    (h : contains openDelim (a ++ ['{', '{']) = false) :
    splitFirst openDelim (a ++ openDelim ++ c) = some (a, c) :=
  splitFirst_rep3 '{' a c h

theorem splitFirst_close_exact (a c : List Char)
    (h : contains closeDelim (a ++ ['}', '}']) = false) :
    splitFirst closeDelim (a ++ closeDelim ++ c) = some (a, c) :=
  splitFirst_rep3 '}' a c h

theorem splitFirst_open_head (x : List Char) :
    splitFirst openDelim (openDelim ++ x) = some ([], x) := by
  have := splitFirst_open_exact [] x (by decide)
  simpa using this

theorem splitFirst_open_min (s a b : List Char)
    (h : splitFirst openDelim s = some (a, b)) :
    contains openDelim (a ++ ['{', '{']) = false :=
  splitFirst_min3 '{' s a b h

theorem splitFirst_close_min (s a b : List Char)
    (h : splitFirst closeDelim s = some (a, b)) :
    contains closeDelim (a ++ ['}', '}']) = false :=
  splitFirst_min3 '}' s a b h

theorem body_no_close (l c : List Char) (ro : Bool)
    (hl : contains closeDelim l = false)
    (hc : contains closeDelim (c ++ ['}', '}']) = false) :
    contains closeDelim
      (((l ++ (if ro then ' ' :: marker else [])) ++ '\n' :: c) ++ ['}', '}']) = false := by
  have hhdr : contains closeDelim (l ++ (if ro then ' ' :: marker else [])) = false := by
    cases ro with
    | false => simpa using hl
    | true =>
      rw [if_pos rfl]
      rw [contains_sep ' ' closeDelim (by decide) (by decide) l marker, hl]
      have hm : contains closeDelim marker = false := by decide
      rw [hm]
      rfl
  have hshape : ((l ++ (if ro then ' ' :: marker else [])) ++ '\n' :: c) ++ ['}', '}'] =
      (l ++ (if ro then ' ' :: marker else [])) ++ '\n' :: (c ++ ['}', '}']) := by
    simp
  rw [hshape, contains_sep '\n' closeDelim (by decide) (by decide), hhdr, hc]
  rfl

theorem segCodeOk_spec (l c : List Char) (h : segCodeOk l c = true) :
    trim l = l ∧ contains ['\n'] l = false ∧ contains closeDelim l = false ∧
    contains marker l = false ∧ contains closeDelim (c ++ ['}', '}']) = false := by
  simp only [segCodeOk, Bool.and_eq_true, Bool.not_eq_true', decide_eq_true_eq] at h
  tauto

theorem parse_render_code (l c tail : List Char) (ro : Bool)
    (hok : segCodeOk l c = true) :
    parseSegments (renderSeg (Segment.code l ro c) ++ tail) =
      Segment.code l ro c :: parseSegments tail := by
  obtain ⟨htr, hnl, hcl, hmk, hcc⟩ := segCodeOk_spec l c hok
  have hstr : renderSeg (Segment.code l ro c) ++ tail =
      openDelim ++
        (((l ++ (if ro then ' ' :: marker else [])) ++ '\n' :: c) ++
          closeDelim ++ tail) := by
    simp [renderSeg]
  rw [hstr]
  have ho := splitFirst_open_head
    (((l ++ (if ro then ' ' :: marker else [])) ++ '\n' :: c) ++ closeDelim ++ tail)
  have hc2 := splitFirst_close_exact
    ((l ++ (if ro then ' ' :: marker else [])) ++ '\n' :: c) tail
    (body_no_close l c ro hcl hcc)
  rw [parseSegments_step _ _ _ _ _ ho hc2, if_pos rfl,
    parseCodeBlock_render l c ro hnl hmk htr, List.nil_append]

theorem parse_render_text_code (t l c tail : List Char) (ro : Bool)
    (ht : t ≠ []) (hto : contains openDelim (t ++ ['{', '{']) = false)
    (hok : segCodeOk l c = true) :
    parseSegments (t ++ renderSeg (Segment.code l ro c) ++ tail) =
      Segment.text t :: Segment.code l ro c :: parseSegments tail := by
  obtain ⟨htr, hnl, hcl, hmk, hcc⟩ := segCodeOk_spec l c hok
  have hstr : t ++ renderSeg (Segment.code l ro c) ++ tail =
      t ++ openDelim ++
        (((l ++ (if ro then ' ' :: marker else [])) ++ '\n' :: c) ++
          closeDelim ++ tail) := by
    simp [renderSeg]
  rw [hstr]
  have ho := splitFirst_open_exact t
    ((((l ++ (if ro then ' ' :: marker else [])) ++ '\n' :: c) ++
      closeDelim ++ tail)) hto
  have hc2 := splitFirst_close_exact
    ((l ++ (if ro then ' ' :: marker else [])) ++ '\n' :: c) tail
    (body_no_close l c ro hcl hcc)
  rw [parseSegments_step _ _ _ _ _ ho hc2, if_neg ht,
    parseCodeBlock_render l c ro hnl hmk htr, List.singleton_append]

/-! ### The round trip on well-formed documents -/

theorem wfDoc_code_spec (l c : List Char) (ro : Bool) (rest : List Segment)
    (h : wfDoc (Segment.code l ro c :: rest) = true) :
    segCodeOk l c = true ∧ wfDoc rest = true := by
  simp only [wfDoc, Bool.and_eq_true] at h
  exact h

theorem wfDoc_text_nil_spec (t : List Char)
    (h : wfDoc [Segment.text t] = true) :
    t ≠ [] ∧ contains openDelim t = false := by
  simp only [wfDoc, Bool.and_eq_true, Bool.not_eq_true',
    decide_eq_false_iff_not] at h
  tauto

theorem wfDoc_text_code_spec (t l c : List Char) (ro : Bool) (rest : List Segment)
    (h : wfDoc (Segment.text t :: Segment.code l ro c :: rest) = true) :
    t ≠ [] ∧ contains openDelim (t ++ ['{', '{']) = false ∧
    segCodeOk l c = true ∧ wfDoc rest = true := by
  simp only [wfDoc, Bool.and_eq_true, Bool.not_eq_true',
    decide_eq_false_iff_not] at h
  tauto

theorem roundtrip_wf : ∀ L, wfDoc L = true →
    parseSegments (buildRawText L) = L := by
  intro L
  induction L with
  | nil => intro _; exact parseSegments_nil
  | cons head rest ih =>
    intro h
    cases head with
    | code l ro c =>
      obtain ⟨hok, hrest⟩ := wfDoc_code_spec l c ro rest h
      have hb : buildRawText (Segment.code l ro c :: rest) =
          renderSeg (Segment.code l ro c) ++ buildRawText rest := by
        simp [buildRawText]
      rw [hb, parse_render_code l c (buildRawText rest) ro hok, ih hrest]
    | text t =>
      cases rest with
      | nil =>
        obtain ⟨ht, hto⟩ := wfDoc_text_nil_spec t h
        have hb : buildRawText [Segment.text t] = t := by
          simp [buildRawText, renderSeg]
        rw [hb, parseSegments_no_open t ht ((splitFirst_none_iff openDelim t).mpr hto)]
      | cons head2 rest2 =>
        cases head2 with
        | text t2 => simp [wfDoc] at h
        | code l ro c =>
          obtain ⟨ht, hto, hok, hrest2⟩ := wfDoc_text_code_spec t l c ro rest2 h
          have hb : buildRawText (Segment.text t :: Segment.code l ro c :: rest2) =
              t ++ renderSeg (Segment.code l ro c) ++ buildRawText rest2 := by
            simp [buildRawText, renderSeg]
          rw [hb, parse_render_text_code t l c (buildRawText rest2) ro ht hto hok]
          have hwf2 : wfDoc (Segment.code l ro c :: rest2) = true := by
            simp only [wfDoc, Bool.and_eq_true]
            exact ⟨hok, hrest2⟩
          have h2 := ih hwf2
          have hb2 : buildRawText (Segment.code l ro c :: rest2) =
              renderSeg (Segment.code l ro c) ++ buildRawText rest2 := by
            simp [buildRawText]
          rw [hb2, parse_render_code l c (buildRawText rest2) ro hok] at h2
          have h3 : parseSegments (buildRawText rest2) = rest2 := by
            injection h2
          rw [h3]

/-! ### Invariants of decoder output -/

theorem contains_false_of_append (pat a b : List Char) (hpat : pat ≠ [])
    (h : contains pat (a ++ b) = false) : contains pat a = false := by
  cases hc : contains pat a with
  | false => rfl
  | true =>
    rw [contains_append_left pat hpat a b hc] at h
    cases h

theorem pcb_shape (body : List Char) :
    ∃ l ro c, parseCodeBlock body = Segment.code l ro c := by
  cases h : splitFirst ['\n'] body with
  | none =>
    rw [parseCodeBlock_eq_none body h]
    by_cases hm : contains marker body = true
    · rw [if_pos hm]; exact ⟨_, _, _, rfl⟩
    · rw [if_neg hm]; exact ⟨_, _, _, rfl⟩
  | some flct =>
    obtain ⟨fl, ct⟩ := flct
    rw [parseCodeBlock_eq_some body fl ct h]
    by_cases hm : contains marker fl = true
    · rw [if_pos hm]; exact ⟨_, _, _, rfl⟩
    · rw [if_neg hm]; exact ⟨_, _, _, rfl⟩

theorem contains_single_trim (ch : Char) (x : List Char)
    (h : contains [ch] x = false) : contains [ch] (trim x) = false := by
  cases hb : contains [ch] (trim x) with
  | false => rfl
  | true =>
    exfalso
    have hm := mem_trim ch x ((contains_single ch (trim x)).mp hb)
    have h2 := (contains_single ch x).mpr hm
    rw [h] at h2
    cases h2

theorem contains_single_removeFirst (ch : Char) (pat x : List Char)
    (h : contains [ch] x = false) : contains [ch] (removeFirst pat x) = false := by
  unfold removeFirst
  cases hsp : splitFirst pat x with
  | none => exact h
  | some ab =>
    obtain ⟨a, b⟩ := ab
    have hx := splitFirst_sound pat x a b hsp
    cases hb : contains [ch] (a ++ b) with
    | false => rfl
    | true =>
      exfalso
      have hmem := (contains_single ch (a ++ b)).mp hb
      have hmx : ch ∈ x := by
        rw [hx]
        rcases List.mem_append.mp hmem with h1 | h1
        · exact List.mem_append_left b (List.mem_append_left pat h1)
        · exact List.mem_append_right (a ++ pat) h1
      have h2 := (contains_single ch x).mpr hmx
      rw [h] at h2
      cases h2

/-- The language produced by `parseCodeBlock` is always trim-fixed and
newline-free, whatever the block body. -/
theorem pcb_lang (body l c : List Char) (ro : Bool)
    (h : parseCodeBlock body = Segment.code l ro c) :
    trim l = l ∧ contains ['\n'] l = false := by
  have main : ∀ fl : List Char, contains ['\n'] fl = false →
      ∀ l' : List Char,
      (l' = trim (trim (removeFirst marker fl)) ∨ l' = trim fl) →
      trim l' = l' ∧ contains ['\n'] l' = false := by
    intro fl hfl l' hl'
    rcases hl' with h1 | h1
    · constructor
      · rw [h1, trim_idem]
      · rw [h1]
        exact contains_single_trim '\n' _ (contains_single_trim '\n' _
          (contains_single_removeFirst '\n' marker fl hfl))
    · constructor
      · rw [h1, trim_idem]
      · rw [h1]
        exact contains_single_trim '\n' fl hfl
  cases hsp : splitFirst ['\n'] body with
  | none =>
    rw [parseCodeBlock_eq_none body hsp] at h
    have hbnl : contains ['\n'] body = false := (splitFirst_none_iff _ _).mp hsp
    by_cases hm : contains marker body = true
    · rw [if_pos hm] at h
      injection h with h1 _ _
      exact main body hbnl l (Or.inl h1.symm)
    · rw [if_neg hm] at h
      injection h with h1 _ _
      exact main body hbnl l (Or.inr h1.symm)
  | some flct =>
    obtain ⟨fl, ct⟩ := flct
    rw [parseCodeBlock_eq_some body fl ct hsp] at h
    have hfl : contains ['\n'] fl = false := splitFirst_min1 '\n' body fl ct hsp
    by_cases hm : contains marker fl = true
    · rw [if_pos hm] at h
      injection h with h1 _ _
      exact main fl hfl l (Or.inl h1.symm)
    · rw [if_neg hm] at h
      injection h with h1 _ _
      exact main fl hfl l (Or.inr h1.symm)

theorem rest2_length_bound (s pre rest body rest2 : List Char) (m : Nat)
    (ho : splitFirst openDelim s = some (pre, rest))
    (hcl : splitFirst closeDelim rest = some (body, rest2))
    (hlen : s.length ≤ m + 1) : rest2.length ≤ m := by
  have len1 := splitFirst_length openDelim s pre rest ho
  have len2 := splitFirst_length closeDelim rest body rest2 hcl
  simp only [openDelim, closeDelim, List.length_cons, List.length_nil] at len1 len2
  omega

theorem textInv_decode_aux : ∀ n s, s.length ≤ n →
    textInv (parseSegments s) = true := by
  intro n
  induction n with
  | zero =>
    intro s h
    have : s = [] := List.length_eq_zero.mp (Nat.le_zero.mp h)
    subst this
    rw [parseSegments_nil]
    rfl
  | succ m ih =>
    intro s hlen
    by_cases hs : s = []
    · subst hs; rw [parseSegments_nil]; rfl
    cases ho : splitFirst openDelim s with
    | none =>
      rw [parseSegments_no_open s hs ho]
      have hno : contains openDelim s = false := (splitFirst_none_iff openDelim s).mp ho
      simp [textInv, hs, hno]
    | some po =>
      obtain ⟨pre, rest⟩ := po
      have hpremin := splitFirst_open_min s pre rest ho
      have hpreno : contains openDelim pre = false :=
        contains_false_of_append openDelim pre ['{', '{'] (by simp [openDelim]) hpremin
      cases hcl : splitFirst closeDelim rest with
      | none =>
        rw [parseSegments_no_close s pre rest ho hcl]
        obtain ⟨l, ro, c, hpcb⟩ := pcb_shape rest
        by_cases hpre : pre = []
        · rw [if_pos hpre, List.nil_append, hpcb]
          rfl
        · rw [if_neg hpre, hpcb]
          simp [textInv, hpre, hpreno]
      | some pc =>
        obtain ⟨body, rest2⟩ := pc
        rw [parseSegments_step s pre rest body rest2 ho hcl]
        have hrec : textInv (parseSegments rest2) = true :=
          ih rest2 (rest2_length_bound s pre rest body rest2 m ho hcl hlen)
        obtain ⟨l, ro, c, hpcb⟩ := pcb_shape body
        by_cases hpre : pre = []
        · rw [if_pos hpre, List.nil_append, hpcb]
          simpa [textInv] using hrec
        · rw [if_neg hpre, hpcb]
          simp [textInv, hpre, hpreno, hrec]

theorem segSafe_spec (l c : List Char) (ro : Bool)
    (h : segSafe (Segment.code l ro c) = true) :
    contains marker l = false ∧ contains closeDelim l = false ∧
    contains closeDelim (c ++ ['}', '}']) = false := by
  simp only [segSafe, Bool.and_eq_true, Bool.not_eq_true'] at h
  tauto

theorem segCodeOk_intro (l c : List Char) (htr : trim l = l)
    (hnl : contains ['\n'] l = false) (hcl : contains closeDelim l = false)
    (hmk : contains marker l = false)
    (hcc : contains closeDelim (c ++ ['}', '}']) = false) :
    segCodeOk l c = true := by
  simp [segCodeOk, htr, hnl, hcl, hmk, hcc]

theorem decode_wf_aux : ∀ n s, s.length ≤ n →
    (parseSegments s).all segSafe = true → wfDoc (parseSegments s) = true := by
  intro n
  induction n with
  | zero =>
    intro s h _
    have : s = [] := List.length_eq_zero.mp (Nat.le_zero.mp h)
    subst this
    rw [parseSegments_nil]
    rfl
  | succ m ih =>
    intro s hlen hall
    by_cases hs : s = []
    · subst hs; rw [parseSegments_nil]; rfl
    cases ho : splitFirst openDelim s with
    | none =>
      rw [parseSegments_no_open s hs ho]
      have hno : contains openDelim s = false := (splitFirst_none_iff openDelim s).mp ho
      simp [wfDoc, hs, hno]
    | some po =>
      obtain ⟨pre, rest⟩ := po
      have hpremin := splitFirst_open_min s pre rest ho
      cases hcl : splitFirst closeDelim rest with
      | none =>
        rw [parseSegments_no_close s pre rest ho hcl] at hall ⊢
        obtain ⟨l, ro, c, hpcb⟩ := pcb_shape rest
        rw [hpcb] at hall ⊢
        have hsafe : segSafe (Segment.code l ro c) = true := by
          simp only [List.all_append, List.all_cons, List.all_nil,
            Bool.and_eq_true] at hall
          tauto
        obtain ⟨hmk, hclz, hcc⟩ := segSafe_spec l c ro hsafe
        obtain ⟨htr, hnl⟩ := pcb_lang rest l c ro hpcb
        have hok : segCodeOk l c = true := segCodeOk_intro l c htr hnl hclz hmk hcc
        by_cases hpre : pre = []
        · rw [if_pos hpre, List.nil_append]
          simp [wfDoc, hok]
        · rw [if_neg hpre]
          simp [wfDoc, hpre, hpremin, hok]
      | some pc =>
        obtain ⟨body, rest2⟩ := pc
        rw [parseSegments_step s pre rest body rest2 ho hcl] at hall ⊢
        obtain ⟨l, ro, c, hpcb⟩ := pcb_shape body
        rw [hpcb] at hall ⊢
        have hall2 : (parseSegments rest2).all segSafe = true := by
          simp only [List.all_append, List.all_cons, Bool.and_eq_true] at hall
          tauto
        have hsafe : segSafe (Segment.code l ro c) = true := by
          simp only [List.all_append, List.all_cons, Bool.and_eq_true] at hall
          tauto
        obtain ⟨hmk, hclz, hcc⟩ := segSafe_spec l c ro hsafe
        obtain ⟨htr, hnl⟩ := pcb_lang body l c ro hpcb
        have hok : segCodeOk l c = true := segCodeOk_intro l c htr hnl hclz hmk hcc
        have hrec : wfDoc (parseSegments rest2) = true :=
          ih rest2 (rest2_length_bound s pre rest body rest2 m ho hcl hlen) hall2
        by_cases hpre : pre = []
        · rw [if_pos hpre, List.nil_append]
          simp [wfDoc, hok, hrec]
        · rw [if_neg hpre]
          simp [wfDoc, hpre, hpremin, hok, hrec]

/-! ### Claim theorems -/

/-- Claim C1, counterexample to the literal statement: the document
consisting of the single code segment with language `x` and content
`a` `}` `}` `}` `b` encodes to a string in which the (only) opening delimiter
does have a later closing delimiter, yet decoding the encoding does not give
the document back (the first close delimiter inside the content ends the
block early). -/
theorem C1_roundtrip_counterexample :
    (splitFirst openDelim
        (buildRawText [Segment.code ['x'] false ['a', '}', '}', '}', 'b']]) =
      some ([], ['x', '\n', 'a', '}', '}', '}', 'b', '}', '}', '}']) ∧
     contains closeDelim ['x', '\n', 'a', '}', '}', '}', 'b', '}', '}', '}'] = true) ∧
    parseSegments (buildRawText [Segment.code ['x'] false ['a', '}', '}', '}', 'b']]) ≠
      [Segment.code ['x'] false ['a', '}', '}', '}', 'b']] := by
  decide

/-- Claim C1 (amended): for every document that is well-formed in the strong
sense of `wfDoc` — text segments non-empty, never adjacent, free of the open
delimiter also across the boundary with a following block, and code segments
with trim-fixed languages free of newline, close delimiter and marker, and
contents exhibiting no close delimiter even when followed by two close
braces — decoding the encoding yields the document back field-for-field. -/
theorem C1_roundtrip_wellformed (d : List Segment) (h : wfDoc d = true) :
    parseSegments (buildRawText d) = d :=
  roundtrip_wf d h

theorem C1_roundtrip_wellformed_witness :
    wfDoc [Segment.text ['a', 'b'], Segment.code ['j', 's'] true ['x']] = true ∧
    parseSegments
        (buildRawText [Segment.text ['a', 'b'], Segment.code ['j', 's'] true ['x']]) =
      [Segment.text ['a', 'b'], Segment.code ['j', 's'] true ['x']] :=
  ⟨by decide, C1_roundtrip_wellformed _ (by decide)⟩

/-- Claim C2, counterexample to the literal statement: on the input
consisting of an open delimiter, the marker twice, `x`, a newline and a
close delimiter, one encode–decode round trip is not a fixpoint of
`encode ∘ decode`: the first decode removes the first marker occurrence and
keeps the second inside `language`; re-encoding appends the marker again and
the second decode removes the occurrence embedded in the language, changing
the language and hence the encoding. -/
theorem C2_idem_counterexample :
    buildRawText (parseSegments (buildRawText (parseSegments
        (openDelim ++ marker ++ marker ++ ['x', '\n'] ++ closeDelim)))) ≠
      buildRawText (parseSegments
        (openDelim ++ marker ++ marker ++ ['x', '\n'] ++ closeDelim)) := by
  decide

/-- Claim C2 (amended): `encode (decode (encode (decode s))) = encode (decode s)`
holds for every input `s` such that each code segment of `decode s` has a
language free of the marker and of the close delimiter, and a content that
exhibits no close delimiter even when two close braces are appended. -/
theorem C2_idempotent_safe (s : List Char)
    (h : (parseSegments s).all segSafe = true) :
    buildRawText (parseSegments (buildRawText (parseSegments s))) =
      buildRawText (parseSegments s) := by
  have hwf : wfDoc (parseSegments s) = true :=
    decode_wf_aux s.length s (Nat.le_refl _) h
  rw [roundtrip_wf (parseSegments s) hwf]

theorem C2_idempotent_safe_witness :
    ((parseSegments
        (['a'] ++ openDelim ++ ['j', 's', '\n', 'x'] ++ closeDelim ++ ['b'])).all
          segSafe = true) ∧
    buildRawText (parseSegments (buildRawText (parseSegments
        (['a'] ++ openDelim ++ ['j', 's', '\n', 'x'] ++ closeDelim ++ ['b'])))) =
      buildRawText (parseSegments
        (['a'] ++ openDelim ++ ['j', 's', '\n', 'x'] ++ closeDelim ++ ['b'])) :=
  ⟨by decide, C2_idempotent_safe _ (by decide)⟩

/-- Claim C3: decode is a total terminating function on every string —
empty input, input without delimiters, an unmatched open delimiter and a
block body without a newline are all resolved to a segment list by fallback
rules, never by an error (the embedding returns a plain `List Segment`). -/
theorem C3_decode_total :
    (∀ s : List Char, ∃ segs : List Segment, parseSegments s = segs) ∧
    parseSegments [] = [] ∧
    parseSegments ['a', 'b', 'c'] = [Segment.text ['a', 'b', 'c']] ∧
    parseSegments openDelim = [Segment.code [] false []] ∧
    parseSegments (openDelim ++ ['a', 'b']) = [Segment.code ['a', 'b'] false []] := by
  refine ⟨fun s => ⟨parseSegments s, rfl⟩, rfl, by decide, by decide, by decide⟩

/-- Claim C4: the header rule of decode.  A block body splits at its first
newline into header and verbatim content (empty content when there is no
newline); `readOnly` is the presence of the marker in the header, `language`
is the header with one literal marker occurrence removed and surrounding
whitespace trimmed. -/
theorem C4_header_rule :
    (∀ hdr c : List Char, contains ['\n'] hdr = false →
      parseCodeBlock (hdr ++ '\n' :: c) =
        Segment.code (trim (removeFirst marker hdr)) (contains marker hdr) c) ∧
    (∀ body : List Char, contains ['\n'] body = false →
      parseCodeBlock body =
        Segment.code (trim (removeFirst marker body)) (contains marker body) []) := by
  constructor
  · intro hdr c hnl
    rw [parseCodeBlock_eq_some (hdr ++ '\n' :: c) hdr c
      (splitFirst_single '\n' hdr c hnl)]
    by_cases hm : contains marker hdr = true
    · rw [if_pos hm, hm, trim_idem]
    · have hm' : contains marker hdr = false := Bool.of_not_eq_true hm
      rw [if_neg hm, hm', removeFirst_of_not_contains marker hdr hm']
  · intro body hnl
    rw [parseCodeBlock_eq_none body ((splitFirst_none_iff ['\n'] body).mpr hnl)]
    by_cases hm : contains marker body = true
    · rw [if_pos hm, hm, trim_idem]
    · have hm' : contains marker body = false := Bool.of_not_eq_true hm
      rw [if_neg hm, hm', removeFirst_of_not_contains marker body hm']

theorem C4_header_rule_witness :
    contains ['\n'] (['p', 'y', ' '] ++ marker) = false ∧
    parseCodeBlock ((['p', 'y', ' '] ++ marker) ++ '\n' :: ['x']) =
      Segment.code (trim (removeFirst marker (['p', 'y', ' '] ++ marker)))
        (contains marker (['p', 'y', ' '] ++ marker)) ['x'] ∧
    trim (removeFirst marker (['p', 'y', ' '] ++ marker)) = ['p', 'y'] ∧
    contains marker (['p', 'y', ' '] ++ marker) = true :=
  ⟨by decide, C4_header_rule.1 _ _ (by decide), by decide, by decide⟩

/-- Claim C5: encode concatenates the per-segment renderings in order with
no separators: a text segment renders as its content verbatim, a code
segment as the open delimiter, the language, a single space plus the marker
exactly when read-only, a newline, the content verbatim and the close
delimiter; in particular the read-only `js` block with content `let x;`
renders as the expected literal. -/
theorem C5_encode_rule :
    buildRawText [] = [] ∧
    (∀ (t : List Char) (rest : List Segment),
      buildRawText (Segment.text t :: rest) = t ++ buildRawText rest) ∧
    (∀ (l c : List Char) (ro : Bool) (rest : List Segment),
      buildRawText (Segment.code l ro c :: rest) =
        openDelim ++ l ++ (if ro then ' ' :: marker else []) ++
          '\n' :: c ++ closeDelim ++ buildRawText rest) ∧
    buildRawText [Segment.code ['j', 's'] true ['l', 'e', 't', ' ', 'x', ';']] =
      ['{', '{', '{', 'j', 's', ' ', '[', 'r', 'e', 'a', 'd', 'o', 'n', 'l', 'y',
        ']', '\n', 'l', 'e', 't', ' ', 'x', ';', '}', '}', '}'] := by
  refine ⟨rfl, fun t rest => by simp [buildRawText, renderSeg],
    fun l c ro rest => by simp [buildRawText, renderSeg], by decide⟩

/-- Claim C6: when the opening delimiter has no later closing delimiter,
decode treats the whole remainder as the body of one final code block, with
no trailing text segment; `decode` of the open delimiter followed by
`unterminated` is a single code segment with empty content. -/
theorem C6_unterminated :
    (∀ s pre rest : List Char, splitFirst openDelim s = some (pre, rest) →
      contains closeDelim rest = false →
      parseSegments s =
        (if pre = [] then [] else [Segment.text pre]) ++ [parseCodeBlock rest]) ∧
    parseSegments
        (openDelim ++ ['u', 'n', 't', 'e', 'r', 'm', 'i', 'n', 'a', 't', 'e', 'd']) =
      [Segment.code ['u', 'n', 't', 'e', 'r', 'm', 'i', 'n', 'a', 't', 'e', 'd']
        false []] := by
  constructor
  · intro s pre rest ho hc
    exact parseSegments_no_close s pre rest ho ((splitFirst_none_iff _ _).mpr hc)
  · decide

theorem C6_unterminated_witness :
    splitFirst openDelim (openDelim ++ ['c', 'o', 'd', 'e']) =
      some ([], ['c', 'o', 'd', 'e']) ∧
    contains closeDelim ['c', 'o', 'd', 'e'] = false ∧
    parseSegments (openDelim ++ ['c', 'o', 'd', 'e']) =
      (if ([] : List Char) = [] then [] else [Segment.text []]) ++
        [parseCodeBlock ['c', 'o', 'd', 'e']] :=
  ⟨by decide, by decide, C6_unterminated.1 _ _ _ (by decide) (by decide)⟩

/-- Claim C7: on input without any opening delimiter, decode yields a single
text segment carrying the whole input, or no segment at all when the input
is empty. -/
theorem C7_no_open (s : List Char) (h : contains openDelim s = false) :
    parseSegments s = if s = [] then [] else [Segment.text s] := by
  by_cases hs : s = []
  · subst hs; rw [if_pos rfl, parseSegments_nil]
  · rw [if_neg hs]
    exact parseSegments_no_open s hs ((splitFirst_none_iff _ _).mpr h)

theorem C7_no_open_witness :
    contains openDelim ['h', 'i'] = false ∧
    parseSegments ['h', 'i'] =
      (if (['h', 'i'] : List Char) = [] then [] else [Segment.text ['h', 'i']]) ∧
    contains openDelim ([] : List Char) = false ∧
    parseSegments ([] : List Char) =
      (if ([] : List Char) = [] then ([] : List Segment) else [Segment.text []]) :=
  ⟨by decide, C7_no_open _ (by decide), by decide, C7_no_open _ (by decide)⟩

/-- Claim C8: replacing the content of the code segment at a valid index
keeps its type, language and read-only flag, succeeds (no fault), and leaves
every other position — and hence its encoder rendering — unchanged. -/
theorem C8_frame (segs : List Segment) (idx : Nat) (l c v : List Char) (ro : Bool)
    (h : segs.get? idx = some (Segment.code l ro c)) :
    handleSegmentChange segs idx v =
      some (segs.set idx (Segment.code l ro v)) ∧
    (segs.set idx (Segment.code l ro v)).get? idx = some (Segment.code l ro v) ∧
    ∀ j, j ≠ idx →
      (segs.set idx (Segment.code l ro v)).get? j = segs.get? j ∧
      ((segs.set idx (Segment.code l ro v)).get? j).map renderSeg =
        (segs.get? j).map renderSeg := by
  have hlt : idx < segs.length := by
    by_contra hge
    rw [List.get?_eq_none.mpr (Nat.le_of_not_lt hge)] at h
    cases h
  refine ⟨?_, ?_, ?_⟩
  · unfold handleSegmentChange
    rw [h]
    rfl
  · exact List.get?_set_eq_of_lt (Segment.code l ro v) hlt
  · intro j hj
    have heq := List.get?_set_ne (Segment.code l ro v) segs (fun he => hj he.symm)
    exact ⟨heq, by rw [heq]⟩

theorem C8_frame_witness :
    ([Segment.text ['t'], Segment.code ['j', 's'] false ['x']].get? 1 =
      some (Segment.code ['j', 's'] false ['x'])) ∧
    handleSegmentChange [Segment.text ['t'], Segment.code ['j', 's'] false ['x']]
        1 ['y'] =
      some ([Segment.text ['t'], Segment.code ['j', 's'] false ['x']].set 1
        (Segment.code ['j', 's'] false ['y'])) :=
  ⟨by decide,
    (C8_frame [Segment.text ['t'], Segment.code ['j', 's'] false ['x']] 1
      ['j', 's'] ['x'] ['y'] false (by decide)).1⟩

/-- Claim C9: every text segment produced by decode is non-empty and free of
the opening delimiter, and decode never emits two adjacent text segments. -/
theorem C9_text_invariants (s : List Char) : textInv (parseSegments s) = true :=
  textInv_decode_aux s.length s (Nat.le_refl s.length)

/-- Claim C10: on any segment sequence whose code segments all have read-only
off, the historical encoder of parseSegments.js and the encoder of Editor.jsx
produce the same raw text. -/
theorem C10_encoders_agree (segs : List Segment) (h : segs.all roFree = true) :
    buildRawTextJs segs = buildRawText segs := by
  induction segs with
  | nil => rfl
  | cons head rest ih =>
    rw [List.all_cons, Bool.and_eq_true] at h
    obtain ⟨hhead, hrest⟩ := h
    have e1 : buildRawTextJs (head :: rest) =
        renderSegJs head ++ buildRawTextJs rest := by simp [buildRawTextJs]
    have e2 : buildRawText (head :: rest) =
        renderSeg head ++ buildRawText rest := by simp [buildRawText]
    rw [e1, e2, ih hrest]
    congr 1
    cases head with
    | text t => rfl
    | code l ro c =>
      have hro : ro = false := by
        cases ro with
        | false => rfl
        | true => simp [roFree] at hhead
      subst hro
      by_cases hl : l = []
      · subst hl; simp [renderSegJs, renderSeg]
      · simp [renderSegJs, renderSeg, hl]

theorem C10_encoders_agree_witness :
    ([Segment.text ['a'], Segment.code ['p', 'y'] false ['z']].all roFree = true) ∧
    buildRawTextJs [Segment.text ['a'], Segment.code ['p', 'y'] false ['z']] =
      buildRawText [Segment.text ['a'], Segment.code ['p', 'y'] false ['z']] :=
  ⟨by decide, C10_encoders_agree _ (by decide)⟩
